import Mathlib

/-!
# HumemAI memory engine: shallow embedding and verification

The repository's visible sources (the brainstorming notebook, the examples,
the ontology file `humemai.ttl` and the CI workflows) call into the `humemai`
package whose implementation is not among the provided files.  The data model
and the operations below are therefore modelled from the specification
(`spec.md`): the qualifier schema and positivity/enumeration constraints from
section 3 and the ontology, the short-term/long-term add operations with the
merge rule from sections 4.2 and 4.3, the working-memory builder from
section 4.4, and the serializer from section 4.6.
-/

namespace Humemai

/-- Modelled from the spec (section 3): a node is an opaque URI-like string. -/
abbrev Node := String

/-- Modelled from the spec (section 3): an ordered (subject, predicate, object)
triple.  Field names shortened to `subj`, `pred`, `obj`. -/
structure Stmt where
  subj : Node
  pred : Node
  obj : Node
deriving DecidableEq

/-- Modelled from the spec (section 3): long-term records carry exactly one
category, `episodic` or `semantic`. -/
inductive Category
  | episodic
  | semantic
deriving DecidableEq

/-- Modelled from the spec (section 3): a record is tagged with exactly one
memory class, short-term or long-term; only long-term records carry a
category. -/
inductive MemoryClass
  | short_term
  | long_term (cat : Category)
deriving DecidableEq

/-- Modelled from the spec (section 3, qualifier table and the ontology file):
the closed qualifier schema.  Timestamps are modelled as natural numbers,
`num_recalled` and `strength` as integers (the ontology restricts them to
positive integers through validation). -/
structure Qualifiers where
  current_time : Option Nat := none
  time_added : Option Nat := none
  num_recalled : Option Int := none
  strength : Option Int := none
  derived_from : Option String := none
  location : Option String := none
  emotion : Option String := none
  event : Option String := none
deriving DecidableEq

/-- Modelled from the spec (section 3): a memory record is a statement plus
qualifiers, a memory class, and a stable identity distinct from the triple
signature. -/
structure MemoryRecord where
  rid : Nat
  stmt : Stmt
  quals : Qualifiers
  cls : MemoryClass
deriving DecidableEq

/-- Modelled from the spec (sections 2 and 6): the statement store, shared by
all managers, holding the records and a fresh-id counter. -/
structure Store where
  records : List MemoryRecord
  nextId : Nat
deriving DecidableEq

def emptyStore : Store := ⟨[], 0⟩

/-- Modelled from the spec (section 7): validation failure. -/
inductive VErr
  | validation
deriving DecidableEq

/-- Modelled from the spec (section 3): the seven-value emotion enumeration. -/
def allowedEmotions : List String :=
  ["neutral", "joy", "surprise", "anger", "sadness", "disgust", "fear"]

def isShortTermB (r : MemoryRecord) : Bool :=
  match r.cls with
  | .short_term => true
  | .long_term _ => false

def isLongTermB (r : MemoryRecord) : Bool :=
  match r.cls with
  | .short_term => false
  | .long_term _ => true

/-- Modelled from the spec (sections 4.2 and 3): a short-term add rejects the
long-term-only qualifier keys (`time_added`, `num_recalled`, `strength`,
`derived_from`); it is otherwise permissive. -/
def validShortTermB (q : Qualifiers) : Bool :=
  q.time_added.isNone && q.num_recalled.isNone && q.strength.isNone
    && q.derived_from.isNone

/-- Modelled from the spec (section 4.3): a valid episodic add supplies at
least one of location, time, emotion, event; an emotion, when present, must
be one of the seven enumerated values; `num_recalled` is maintained by the
merge rule and unexpected keys are rejected. -/
def validEpisodicB (q : Qualifiers) : Bool :=
  (q.location.isSome || q.time_added.isSome || q.emotion.isSome || q.event.isSome)
    && (match q.emotion with
        | none => true
        | some e => decide (e ∈ allowedEmotions))
    && q.current_time.isNone && q.num_recalled.isNone && q.strength.isNone
    && q.derived_from.isNone

/-- Modelled from the spec (section 4.3): a valid semantic add requires
`derived_from` and a positive `strength`; unexpected keys are rejected. -/
def validSemanticB (q : Qualifiers) : Bool :=
  q.derived_from.isSome
    && (match q.strength with
        | none => false
        | some s => decide (1 ≤ s))
    && q.current_time.isNone && q.num_recalled.isNone && q.location.isNone
    && q.emotion.isNone && q.event.isNone

def validLongTermB : Category → Qualifiers → Bool
  | .episodic, q => validEpisodicB q
  | .semantic, q => validSemanticB q

/-- Modelled from the spec (section 4.2): the record created by a short-term
add carries the given qualifiers plus `current_time := now`. -/
def shortTermRecord (q : Qualifiers) (now : Nat) (rid : Nat) (t : Stmt) :
    MemoryRecord :=
  ⟨rid, t, { q with current_time := some now }, .short_term⟩

/-- Modelled from the spec (section 4.2): for each statement, create one new
short-term record; fail with a validation error if the qualifiers include a
long-term-only key. -/
def add_short_term_memory (st : Store) (ts : List Stmt) (q : Qualifiers)
    (now : Nat) : Except VErr Store :=
  if validShortTermB q then
    .ok (ts.foldl
      (fun s t =>
        ⟨s.records ++ [shortTermRecord q now s.nextId t], s.nextId + 1⟩)
      st)
  else .error .validation

/-- Modelled from the spec (section 4.3): the qualifiers of a freshly inserted
long-term record: `time_added` auto-assigned to `now` if absent,
`num_recalled` initialised to 1 for episodic, the supplied `strength` and
`derived_from` kept for semantic. -/
def newLongTermQuals (cat : Category) (q : Qualifiers) (now : Nat) :
    Qualifiers :=
  match cat with
  | .episodic =>
      { time_added := some (q.time_added.getD now), num_recalled := some 1,
        location := q.location, emotion := q.emotion, event := q.event }
  | .semantic =>
      { time_added := some (q.time_added.getD now), strength := q.strength,
        derived_from := q.derived_from }

/-- Modelled from the spec (section 4.3, merge rule): on a merge the existing
episodic record's `num_recalled` is incremented by one; the existing semantic
record's `strength` is incremented by the newly supplied strength value. -/
def bump (cat : Category) (q : Qualifiers) (r : MemoryRecord) : MemoryRecord :=
  match cat with
  | .episodic =>
      let q' := { r.quals with num_recalled := some (r.quals.num_recalled.getD 0 + 1) }
      { r with quals := q' }
  | .semantic =>
      let s' := some (r.quals.strength.getD 0 + q.strength.getD 0)
      let q' := { r.quals with strength := s' }
      { r with quals := q' }

/-- Modelled from the spec (section 4.3): a long-term record matches a merge
search when it has the identical triple and the identical category. -/
def matchesB (cat : Category) (t : Stmt) (r : MemoryRecord) : Bool :=
  decide (r.stmt = t ∧ r.cls = .long_term cat)

/-- Modelled from the spec (section 4.3): search the record list for an
existing long-term record with identical triple and category; when found,
update it in place via the merge rule and report the updated list. -/
def mergeInto (cat : Category) (q : Qualifiers) (t : Stmt) :
    List MemoryRecord → Option (List MemoryRecord)
  | [] => none
  | r :: rs =>
      if matchesB cat t r then some (bump cat q r :: rs)
      else (mergeInto cat q t rs).map (fun rs' => r :: rs')

/-- Modelled from the spec (section 4.3): add one statement to long-term
memory: merge into an existing matching record when one exists, otherwise
insert a new record. -/
def addLongTermOne (cat : Category) (q : Qualifiers) (now : Nat) (st : Store)
    (t : Stmt) : Store :=
  match mergeInto cat q t st.records with
  | some rs => { st with records := rs }
  | none =>
      ⟨st.records ++ [⟨st.nextId, t, newLongTermQuals cat q now, .long_term cat⟩],
       st.nextId + 1⟩

/-- Modelled from the spec (section 4.3): validate the qualifiers for the
category, then apply the merge-or-insert rule to each statement in order;
on validation failure nothing is written. -/
def add_long_term_memory (st : Store) (cat : Category) (ts : List Stmt)
    (q : Qualifiers) (now : Nat) : Except VErr Store :=
  if validLongTermB cat q then
    .ok (ts.foldl (addLongTermOne cat q now) st)
  else .error .validation

/-- A sequence of single-triple long-term adds of the same statement, each
with its own qualifiers and timestamp, threaded through
`add_long_term_memory`. -/
def runAdds (cat : Category) (t : Stmt) (st : Store) :
    List (Qualifiers × Nat) → Except VErr Store
  | [] => .ok st
  | (q, now) :: rest =>
      match add_long_term_memory st cat [t] q now with
      | .ok st' => runAdds cat t st' rest
      | .error e => .error e

/-- Does the record touch (as subject or object) one of the given nodes? -/
def touches (v : List Node) (r : MemoryRecord) : Bool :=
  decide (r.stmt.subj ∈ v ∨ r.stmt.obj ∈ v)

/-- Modelled from the spec (section 4.4): both endpoints of every record
incident to the current node set. -/
def neighborsOf (st : Store) (v : List Node) : List Node :=
  (st.records.filter (fun r => touches v r)).flatMap
    (fun r => [r.stmt.subj, r.stmt.obj])

/-- Modelled from the spec (section 4.4): the nodes reached by a breadth-first
expansion from the trigger set crossing up to `k` edges, following both edge
directions. -/
def visited (st : Store) (trig : List Node) : Nat → List Node
  | 0 => trig
  | k + 1 => visited st trig k ++ neighborsOf st (visited st trig k)

/-- Modelled from the spec (section 4.4): the hop rule.  At hop 0 only
short-term records incident to a trigger node are kept; at hop `k > 0` every
record whose subject or object lies in the visited node set is kept. -/
def hopRuleB (st : Store) (trig : List Node) (hops : Nat)
    (r : MemoryRecord) : Bool :=
  if hops = 0 then isShortTermB r && touches trig r
  else touches (visited st trig hops) r

/-- Modelled from the spec (section 4.4): the working-memory builder.
`includeAll` overrides the hop bound for long-term records only. -/
def get_working_memory (st : Store) (trig : List Node) (hops : Nat)
    (includeAll : Bool) : List MemoryRecord :=
  st.records.filter (fun r => hopRuleB st trig hops r || (includeAll && isLongTermB r))

/-- Modelled from the spec (section 5): the reachable store states, produced
from the empty store by successful short-term and long-term adds. -/
inductive Reachable : Store → Prop
  | empty : Reachable emptyStore
  | short (st st' : Store) (ts : List Stmt) (q : Qualifiers) (now : Nat) :
      Reachable st → add_short_term_memory st ts q now = .ok st' → Reachable st'
  | long (st st' : Store) (cat : Category) (ts : List Stmt) (q : Qualifiers)
      (now : Nat) :
      Reachable st → add_long_term_memory st cat ts q now = .ok st' →
      Reachable st'

/-- Every `num_recalled` and `strength` value carried by the qualifiers is at
least one. -/
def positiveQuals (q : Qualifiers) : Prop :=
  (∀ k, q.num_recalled = some k → 1 ≤ k) ∧ (∀ s, q.strength = some s → 1 ≤ s)

/-! ## Serializer

Modelled from the spec (section 4.6): a deterministic textual format, one
line per record, the line carrying the triple, the class/category tag and the
qualifier block, re-parseable by the importer for every store.  Free-text
values are escaped (backslash escapes for the separator characters), so
arbitrary node names and string qualifiers survive the round trip.  Record
ids are not written; the importer assigns fresh ids. -/

def digitChar : Nat → Char
  | 0 => '0'
  | 1 => '1'
  | 2 => '2'
  | 3 => '3'
  | 4 => '4'
  | 5 => '5'
  | 6 => '6'
  | 7 => '7'
  | 8 => '8'
  | _ => '9'

def charDigit (c : Char) : Nat := c.toNat - 48

def encNat (n : Nat) : List Char := (Nat.digits 10 n).map digitChar

def decNat (cs : List Char) : Nat := Nat.ofDigits 10 (cs.map charDigit)

def encInt (i : Int) : List Char :=
  if i < 0 then '-' :: encNat i.natAbs else encNat i.natAbs

def decInt (cs : List Char) : Int :=
  match cs with
  | [] => 0
  | c :: rest =>
      if c = '-' then -(decNat rest : Int) else (decNat (c :: rest) : Int)

def encOptNat : Option Nat → List Char
  | none => ['0']
  | some n => '1' :: encNat n

def decOptNat (cs : List Char) : Option (Option Nat) :=
  match cs with
  | [] => none
  | c :: rest =>
      if c = '0' then (if rest = [] then some none else none)
      else if c = '1' then some (some (decNat rest)) else none

def encOptInt : Option Int → List Char
  | none => ['0']
  | some i => '1' :: encInt i

def decOptInt (cs : List Char) : Option (Option Int) :=
  match cs with
  | [] => none
  | c :: rest =>
      if c = '0' then (if rest = [] then some none else none)
      else if c = '1' then some (some (decInt rest)) else none

/-- The escape sequence of one text character: backslash doubles itself, and
the format's separators (tab and newline) are written as backslash-t and
backslash-n, so that arbitrary strings survive the line/field layout. -/
def escChar (c : Char) : List Char :=
  if c = '\\' then ['\\', '\\']
  else if c = '\t' then ['\\', 't']
  else if c = '\n' then ['\\', 'n']
  else [c]

def escape : List Char → List Char
  | [] => []
  | c :: cs => escChar c ++ escape cs

def unescape : List Char → List Char
  | [] => []
  | [c] => if c = '\\' then [] else [c]
  | c :: d :: rest =>
      if c = '\\' then
        (if d = 't' then '\t' else if d = 'n' then '\n' else d)
          :: unescape rest
      else c :: unescape (d :: rest)

def encOptStr : Option String → List Char
  | none => ['0']
  | some s => '1' :: escape s.data

def decOptStr (cs : List Char) : Option (Option String) :=
  match cs with
  | [] => none
  | c :: rest =>
      if c = '0' then (if rest = [] then some none else none)
      else if c = '1' then some (some (String.mk (unescape rest))) else none

def encodeClass : MemoryClass → List Char
  | .short_term => ['S']
  | .long_term .episodic => ['E']
  | .long_term .semantic => ['M']

def decodeClass (cs : List Char) : Option MemoryClass :=
  if cs = ['S'] then some .short_term
  else if cs = ['E'] then some (.long_term .episodic)
  else if cs = ['M'] then some (.long_term .semantic)
  else none

def joinWith (sep : Char) : List (List Char) → List Char
  | [] => []
  | [l] => l
  | l :: ls => l ++ sep :: joinWith sep ls

def splitOnChar (sep : Char) : List Char → List (List Char)
  | [] => [[]]
  | c :: cs =>
      if c = sep then [] :: splitOnChar sep cs
      else
        match splitOnChar sep cs with
        | [] => [[c]]
        | l :: ls => (c :: l) :: ls

/-- The id-independent content of a record: triple, qualifiers and
class/category. -/
abbrev RecData := Stmt × Qualifiers × MemoryClass

def encodeRecord (r : MemoryRecord) : List Char :=
  joinWith '\t'
    [escape r.stmt.subj.data, escape r.stmt.pred.data, escape r.stmt.obj.data,
     encodeClass r.cls,
     encOptNat r.quals.current_time, encOptNat r.quals.time_added,
     encOptInt r.quals.num_recalled, encOptInt r.quals.strength,
     encOptStr r.quals.derived_from, encOptStr r.quals.location,
     encOptStr r.quals.emotion, encOptStr r.quals.event]

def decodeRecord (cs : List Char) : Option RecData :=
  match splitOnChar '\t' cs with
  | [s, p, o, c, f1, f2, f3, f4, f5, f6, f7, f8] => do
      let cls ← decodeClass c
      let ct ← decOptNat f1
      let ta ← decOptNat f2
      let nr ← decOptInt f3
      let sg ← decOptInt f4
      let df ← decOptStr f5
      let lo ← decOptStr f6
      let em ← decOptStr f7
      let ev ← decOptStr f8
      some (⟨String.mk (unescape s), String.mk (unescape p),
          String.mk (unescape o)⟩,
        ⟨ct, ta, nr, sg, df, lo, em, ev⟩, cls)
  | _ => none

def sequenceO : List (Option RecData) → Option (List RecData)
  | [] => some []
  | none :: _ => none
  | some a :: rest => (sequenceO rest).map (fun l => a :: l)

def recordsFromData (i : Nat) : List RecData → List MemoryRecord
  | [] => []
  | d :: ds => ⟨i, d.1, d.2.1, d.2.2⟩ :: recordsFromData (i + 1) ds

def save_to_ttl (st : Store) : String :=
  String.mk (joinWith '\n' (st.records.map encodeRecord))

def load_from_ttl (text : String) : Option Store :=
  if text.data = [] then some emptyStore
  else
    match sequenceO ((splitOnChar '\n' text.data).map decodeRecord) with
    | some items => some ⟨recordsFromData 0 items, items.length⟩
    | none => none

/-- The id-independent key of a record, compared by the round-trip law. -/
def recKey (r : MemoryRecord) : RecData := (r.stmt, r.quals, r.cls)

/-! ## Working-memory lemmas -/

theorem isShortTermB_iff (r : MemoryRecord) :
    isShortTermB r = true ↔ r.cls = .short_term := by
  cases hc : r.cls <;> simp [isShortTermB, hc]

theorem isLongTermB_eq_not (r : MemoryRecord) :
    isLongTermB r = !isShortTermB r := by
  cases hc : r.cls <;> simp [isShortTermB, isLongTermB, hc]

theorem touches_iff (v : List Node) (r : MemoryRecord) :
    touches v r = true ↔ (r.stmt.subj ∈ v ∨ r.stmt.obj ∈ v) := by
  simp [touches]

theorem touches_mono {v w : List Node} (hvw : ∀ x ∈ v, x ∈ w)
    (r : MemoryRecord) (h : touches v r = true) : touches w r = true := by
  rw [touches_iff] at h ⊢
  rcases h with h | h
  · exact Or.inl (hvw _ h)
  · exact Or.inr (hvw _ h)

theorem mem_visited_of_mem_trig (st : Store) (trig : List Node) (k : Nat) :
    ∀ x ∈ trig, x ∈ visited st trig k := by
  induction k with
  | zero => intro x hx; simpa [visited] using hx
  | succ k ih =>
      intro x hx
      simp only [visited, List.mem_append]
      exact Or.inl (ih x hx)

theorem visited_mono (st : Store) (trig : List Node) {k1 k2 : Nat}
    (h : k1 ≤ k2) : ∀ x ∈ visited st trig k1, x ∈ visited st trig k2 := by
  induction h with
  | refl => intro x hx; exact hx
  | step h ih =>
      intro x hx
      simp only [visited, List.mem_append]
      exact Or.inl (ih x hx)

theorem mem_gwm {st : Store} {trig : List Node} {hops : Nat} {incl : Bool}
    {r : MemoryRecord} :
    r ∈ get_working_memory st trig hops incl ↔
      r ∈ st.records ∧
        (hopRuleB st trig hops r || (incl && isLongTermB r)) = true := by
  simp [get_working_memory, List.mem_filter]

/-- C3: `build(trigger, hops=0, include_all_long_term=false)` returns exactly
the short-term records whose subject or object is a trigger node — no
long-term record is ever included — and it returns the empty set when no
short-term record touches a trigger node. -/
theorem C3_hop_zero_short_only (st : Store) (trig : List Node) :
    (∀ r, r ∈ get_working_memory st trig 0 false ↔
        r ∈ st.records ∧ r.cls = .short_term ∧
          (r.stmt.subj ∈ trig ∨ r.stmt.obj ∈ trig))
    ∧ ((∀ r ∈ st.records, r.cls = .short_term →
          r.stmt.subj ∉ trig ∧ r.stmt.obj ∉ trig) →
        get_working_memory st trig 0 false = []) := by
  have hchar : ∀ r : MemoryRecord,
      (hopRuleB st trig 0 r || (false && isLongTermB r)) = true ↔
        r.cls = .short_term ∧ (r.stmt.subj ∈ trig ∨ r.stmt.obj ∈ trig) := by
    intro r
    rw [hopRuleB, if_pos rfl]
    simp [isShortTermB_iff, touches_iff]
  constructor
  · intro r
    rw [mem_gwm, hchar r]
  · intro hnone
    rw [get_working_memory, List.filter_eq_nil_iff]
    intro r hr hcond
    obtain ⟨hcls, htouch⟩ := (hchar r).mp hcond
    obtain ⟨hs, ho⟩ := hnone r hr hcls
    rcases htouch with h | h
    · exact hs h
    · exact ho h

/-- C4: hop-count monotonicity — with `include_all_long_term=false`, every
record returned at hop count `k1` is returned at any hop count `k2 > k1`. -/
theorem C4_hop_monotonicity (st : Store) (trig : List Node) {k1 k2 : Nat}
    (h : k1 < k2) :
    ∀ r ∈ get_working_memory st trig k1 false,
      r ∈ get_working_memory st trig k2 false := by
  intro r hr
  rw [mem_gwm] at hr ⊢
  obtain ⟨hmem, hcond⟩ := hr
  refine ⟨hmem, ?_⟩
  simp only [Bool.false_and, Bool.or_false] at hcond ⊢
  have hk2 : ¬k2 = 0 := by omega
  rw [hopRuleB, if_neg hk2]
  rcases Nat.eq_zero_or_pos k1 with h0 | hpos
  · subst h0
    rw [hopRuleB, if_pos rfl, Bool.and_eq_true] at hcond
    refine touches_mono (fun x hx => ?_) r hcond.2
    exact visited_mono st trig (Nat.zero_le k2) x (by simpa [visited] using hx)
  · rw [hopRuleB, if_neg (by omega)] at hcond
    exact touches_mono (visited_mono st trig (Nat.le_of_lt h)) r hcond

theorem filter_filter_of_imp {α : Type} {p q : α → Bool} (l : List α)
    (h : ∀ a, q a = true → p a = true) :
    (l.filter p).filter q = l.filter q := by
  induction l with
  | nil => rfl
  | cons a l ih =>
      by_cases hq : q a = true
      · have hp := h a hq
        simp [List.filter_cons, hp, hq, ih]
      · have hq' : q a = false := by
          cases hqa : q a
          · rfl
          · exact absurd hqa hq
        cases hp : p a <;> simp [List.filter_cons, hp, hq', ih]

/-- C5: with `include_all_long_term=true` the long-term subset of the view
equals the entire long-term store for every trigger set and hop count, while
a short-term record is included exactly when the hop rule alone would include
it. -/
theorem C5_include_all_long_term (st : Store) (trig : List Node)
    (hops : Nat) :
    (get_working_memory st trig hops true).filter isLongTermB
        = st.records.filter isLongTermB
    ∧ (∀ r, isShortTermB r = true →
        (r ∈ get_working_memory st trig hops true ↔
          r ∈ get_working_memory st trig hops false)) := by
  constructor
  · rw [get_working_memory]
    apply filter_filter_of_imp
    intro r hlt
    rw [hlt]
    simp
  · intro r hshort
    have hlt : isLongTermB r = false := by
      rw [isLongTermB_eq_not, hshort]
      rfl
    rw [mem_gwm, mem_gwm, hlt]
    simp

/-- C10: with `include_all_long_term=true` the builder accepts an empty
trigger set, and the result then consists of exactly the long-term records of
the store, for every hop count. -/
theorem C10_no_trigger_all_long_term (st : Store) (hops : Nat) :
    get_working_memory st [] hops true = st.records.filter isLongTermB := by
  have hvis : ∀ k, visited st [] k = [] := by
    intro k
    induction k with
    | zero => rfl
    | succ k ih =>
        simp [visited, ih, neighborsOf, touches]
  rw [get_working_memory]
  apply List.filter_congr
  intro r hr
  have hhop : hopRuleB st [] hops r = false := by
    rw [hopRuleB]
    split
    · simp [touches]
    · simp [hvis, touches]
  rw [hhop]
  simp

/-! ## Validation lemmas -/

/-- C7: a long-term episodic add whose emotion qualifier is not one of the
seven enumerated values fails with a validation error: nothing is written. -/
theorem C7_emotion_enum_rejected (st : Store) (ts : List Stmt)
    (q : Qualifiers) (now : Nat) (e : String) (he : q.emotion = some e)
    (hbad : e ∉ allowedEmotions) :
    add_long_term_memory st .episodic ts q now = .error .validation := by
  have hval : validEpisodicB q = false := by
    rw [validEpisodicB, he]
    simp [hbad]
  rw [add_long_term_memory]
  rw [show validLongTermB .episodic q = validEpisodicB q from rfl, hval]
  rfl

/-! ## Short-term add lemmas -/

/-- The records created by one short-term add call, starting at the given
fresh id. -/
def shortNew (q : Qualifiers) (now : Nat) : Nat → List Stmt → List MemoryRecord
  | _, [] => []
  | i, t :: ts => shortTermRecord q now i t :: shortNew q now (i + 1) ts

theorem shortFold_records (q : Qualifiers) (now : Nat) :
    ∀ (ts : List Stmt) (st : Store),
      (ts.foldl
        (fun s t =>
          ⟨s.records ++ [shortTermRecord q now s.nextId t], s.nextId + 1⟩)
        st).records
        = st.records ++ shortNew q now st.nextId ts := by
  intro ts
  induction ts with
  | nil => intro st; simp [shortNew]
  | cons t ts ih =>
      intro st
      rw [List.foldl_cons, ih]
      simp [shortNew]

theorem shortNew_length (q : Qualifiers) (now : Nat) :
    ∀ (ts : List Stmt) (i : Nat), (shortNew q now i ts).length = ts.length := by
  intro ts
  induction ts with
  | nil => intro i; rfl
  | cons t ts ih => intro i; simp [shortNew, ih]

theorem shortNew_shape (q : Qualifiers) (now : Nat) :
    ∀ (ts : List Stmt) (i : Nat), ∀ r ∈ shortNew q now i ts,
      r.cls = .short_term ∧ r.quals = { q with current_time := some now } := by
  intro ts
  induction ts with
  | nil => intro i r hr; simp [shortNew] at hr
  | cons t ts ih =>
      intro i r hr
      rw [shortNew, List.mem_cons] at hr
      rcases hr with rfl | hr
      · exact ⟨rfl, rfl⟩
      · exact ih (i + 1) r hr

/-- C9: a short-term add never merges — it always succeeds on valid
qualifiers, leaving every existing record untouched and appending one fresh
short-term record per statement, so the short-term record count grows by the
number of statements passed even when the statements and qualifiers duplicate
existing records. -/
theorem C9_short_term_never_merges (st : Store) (ts : List Stmt)
    (q : Qualifiers) (now : Nat) (hv : validShortTermB q = true) :
    ∃ st', add_short_term_memory st ts q now = .ok st'
      ∧ st'.records = st.records ++ shortNew q now st.nextId ts
      ∧ st'.records.length = st.records.length + ts.length
      ∧ (st'.records.filter isShortTermB).length
          = (st.records.filter isShortTermB).length + ts.length := by
  refine ⟨_, by rw [add_short_term_memory, if_pos hv], ?_, ?_, ?_⟩
  · exact shortFold_records q now ts st
  · rw [shortFold_records q now ts st]
    simp [shortNew_length]
  · rw [shortFold_records q now ts st, List.filter_append]
    have hkeep : (shortNew q now st.nextId ts).filter isShortTermB
        = shortNew q now st.nextId ts := by
      apply List.filter_eq_self.mpr
      intro r hr
      have := (shortNew_shape q now ts st.nextId r hr).1
      rw [isShortTermB_iff]
      exact this
    rw [hkeep]
    simp [shortNew_length]

/-! ## Long-term merge-rule lemmas -/

theorem matchesB_bump (cat : Category) (q : Qualifiers) (t : Stmt)
    (r : MemoryRecord) : matchesB cat t (bump cat q r) = matchesB cat t r := by
  cases cat <;> simp [bump, matchesB]

theorem mergeInto_none {cat : Category} {q : Qualifiers} {t : Stmt} :
    ∀ {rs : List MemoryRecord}, rs.filter (matchesB cat t) = [] →
      mergeInto cat q t rs = none := by
  intro rs
  induction rs with
  | nil => intro _; rfl
  | cons r rs ih =>
      intro h
      rw [List.filter_cons] at h
      have hm : matchesB cat t r = false := by
        cases hq : matchesB cat t r
        · rfl
        · rw [hq] at h; simp at h
      rw [hm] at h
      simp only [Bool.false_eq_true, if_false] at h
      rw [mergeInto, if_neg (by rw [hm]; exact Bool.false_ne_true), ih h]
      rfl

theorem mergeInto_single {cat : Category} {q : Qualifiers} {t : Stmt} :
    ∀ {rs : List MemoryRecord} {r0 : MemoryRecord},
      rs.filter (matchesB cat t) = [r0] →
      ∃ rs', mergeInto cat q t rs = some rs'
        ∧ rs'.filter (matchesB cat t) = [bump cat q r0] := by
  intro rs
  induction rs with
  | nil => intro r0 h; simp at h
  | cons r rs ih =>
      intro r0 h
      rw [List.filter_cons] at h
      cases hm : matchesB cat t r
      · rw [hm] at h
        simp only [Bool.false_eq_true, if_false] at h
        obtain ⟨rs', hmerge, hfilter⟩ := ih h
        refine ⟨r :: rs', ?_, ?_⟩
        · rw [mergeInto, if_neg (by rw [hm]; exact Bool.false_ne_true), hmerge]
          rfl
        · rw [List.filter_cons, hm]
          simpa using hfilter
      · rw [hm] at h
        simp only [if_true] at h
        have hr : r = r0 := by
          have := List.head_eq_of_cons_eq h
          exact this
        have htail : rs.filter (matchesB cat t) = [] :=
          List.tail_eq_of_cons_eq h
        subst hr
        refine ⟨bump cat q r :: rs, ?_, ?_⟩
        · rw [mergeInto, if_pos hm]
        · rw [List.filter_cons, matchesB_bump, hm, if_pos rfl, htail]

theorem add_one_found {cat : Category} {q : Qualifiers} {now : Nat}
    {st : Store} {t : Stmt} {r0 : MemoryRecord}
    (hv : validLongTermB cat q = true)
    (h : st.records.filter (matchesB cat t) = [r0]) :
    ∃ st', add_long_term_memory st cat [t] q now = .ok st'
      ∧ st'.records.filter (matchesB cat t) = [bump cat q r0] := by
  obtain ⟨rs', hmerge, hfilter⟩ := @mergeInto_single cat q t st.records r0 h
  refine ⟨{ st with records := rs' }, ?_, hfilter⟩
  rw [add_long_term_memory, if_pos hv]
  simp [addLongTermOne, hmerge]

theorem add_one_new {cat : Category} {q : Qualifiers} {now : Nat}
    {st : Store} {t : Stmt} (hv : validLongTermB cat q = true)
    (h : st.records.filter (matchesB cat t) = []) :
    ∃ st', add_long_term_memory st cat [t] q now = .ok st'
      ∧ st'.records.filter (matchesB cat t)
          = [⟨st.nextId, t, newLongTermQuals cat q now, .long_term cat⟩] := by
  have hmerge := @mergeInto_none cat q t st.records h
  refine ⟨_, by rw [add_long_term_memory, if_pos hv], ?_⟩
  show ((List.foldl (addLongTermOne cat q now) st [t]).records.filter
      (matchesB cat t)) = _
  rw [List.foldl_cons, List.foldl_nil, addLongTermOne, hmerge]
  simp only [List.filter_append, h, List.nil_append]
  rw [List.filter_cons]
  simp [matchesB]

theorem runAdds_episodic {t : Stmt} :
    ∀ (qs : List (Qualifiers × Nat)) {st : Store} {r0 : MemoryRecord} {a : Int},
      (∀ p ∈ qs, validEpisodicB p.1 = true) →
      st.records.filter (matchesB .episodic t) = [r0] →
      r0.quals.num_recalled = some a →
      ∃ st' r, runAdds .episodic t st qs = .ok st'
        ∧ st'.records.filter (matchesB .episodic t) = [r]
        ∧ r.quals.num_recalled = some (a + qs.length) := by
  intro qs
  induction qs with
  | nil =>
      intro st r0 a _ hf hn
      exact ⟨st, r0, rfl, hf, by simpa using hn⟩
  | cons p rest ih =>
      intro st r0 a hv hf hn
      obtain ⟨q0, now0⟩ := p
      have hv0 : validLongTermB .episodic q0 = true := hv (q0, now0) (by simp)
      obtain ⟨st1, hok, hf1⟩ := @add_one_found .episodic q0 now0 st t r0 hv0 hf
      have hb : (bump .episodic q0 r0).quals.num_recalled = some (a + 1) := by
        simp [bump, hn]
      obtain ⟨st', r, hrun, hf', hn'⟩ :=
        ih (fun p hp => hv p (by simp [hp])) hf1 hb
      refine ⟨st', r, ?_, hf', ?_⟩
      · rw [runAdds, hok]
        exact hrun
      · rw [hn']
        congr 1
        simp only [List.length_cons]
        push_cast
        ring

/-- C1: repeating a valid episodic add of the same triple `n ≥ 1` times (each
call with its own valid qualifiers and timestamp), starting from a store
holding no episodic record for that triple, leaves exactly one episodic
record for the triple, whose `num_recalled` equals `n`; no duplicate episodic
record is created. -/
theorem C1_episodic_repeat_merges (t : Stmt) (st : Store)
    (qs : List (Qualifiers × Nat))
    (h0 : st.records.filter (matchesB .episodic t) = [])
    (hne : qs ≠ [])
    (hv : ∀ p ∈ qs, validEpisodicB p.1 = true) :
    ∃ st' r, runAdds .episodic t st qs = .ok st'
      ∧ st'.records.filter (matchesB .episodic t) = [r]
      ∧ r.quals.num_recalled = some (qs.length : Int) := by
  cases qs with
  | nil => exact absurd rfl hne
  | cons p rest =>
      obtain ⟨q0, now0⟩ := p
      have hv0 : validLongTermB .episodic q0 = true := hv (q0, now0) (by simp)
      obtain ⟨st1, hok, hf1⟩ := @add_one_new .episodic q0 now0 st t hv0 h0
      have hn1 : (⟨st.nextId, t, newLongTermQuals .episodic q0 now0,
          .long_term .episodic⟩ : MemoryRecord).quals.num_recalled
            = some 1 := by
        simp [newLongTermQuals]
      obtain ⟨st', r, hrun, hf', hn'⟩ :=
        runAdds_episodic rest (fun p hp => hv p (by simp [hp])) hf1 hn1
      refine ⟨st', r, ?_, hf', ?_⟩
      · rw [runAdds, hok]
        exact hrun
      · rw [hn']
        congr 1
        simp only [List.length_cons]
        push_cast
        ring

theorem validSemantic_strength {q : Qualifiers}
    (h : validSemanticB q = true) : ∃ s, q.strength = some s ∧ 1 ≤ s := by
  rw [validSemanticB] at h
  cases hs : q.strength with
  | none => rw [hs] at h; simp at h
  | some s =>
      rw [hs] at h
      simp only [Bool.and_eq_true, decide_eq_true_eq] at h
      exact ⟨s, rfl, h.1.1.1.1.1.2⟩

theorem runAdds_semantic {t : Stmt} :
    ∀ (qs : List (Qualifiers × Nat)) {st : Store} {r0 : MemoryRecord} {a : Int},
      (∀ p ∈ qs, validSemanticB p.1 = true) →
      st.records.filter (matchesB .semantic t) = [r0] →
      r0.quals.strength = some a →
      ∃ st' r, runAdds .semantic t st qs = .ok st'
        ∧ st'.records.filter (matchesB .semantic t) = [r]
        ∧ r.quals.strength
            = some (a + (qs.map (fun p => p.1.strength.getD 0)).sum) := by
  intro qs
  induction qs with
  | nil =>
      intro st r0 a _ hf hn
      exact ⟨st, r0, rfl, hf, by simpa using hn⟩
  | cons p rest ih =>
      intro st r0 a hv hf hn
      obtain ⟨q0, now0⟩ := p
      have hv0 : validLongTermB .semantic q0 = true := hv (q0, now0) (by simp)
      obtain ⟨st1, hok, hf1⟩ := @add_one_found .semantic q0 now0 st t r0 hv0 hf
      have hb : (bump .semantic q0 r0).quals.strength
          = some (a + q0.strength.getD 0) := by
        simp [bump, hn]
      obtain ⟨st', r, hrun, hf', hn'⟩ :=
        ih (fun p hp => hv p (by simp [hp])) hf1 hb
      refine ⟨st', r, ?_, hf', ?_⟩
      · rw [runAdds, hok]
        exact hrun
      · rw [hn']
        congr 1
        simp only [List.map_cons, List.sum_cons]
        ring

/-- C2: a sequence of valid semantic adds of the same triple with strength
values s1, …, sn, starting from a store holding no semantic record for that
triple, leaves exactly one semantic record for the triple, whose `strength`
equals the sum s1 + … + sn (not the count n). -/
theorem C2_semantic_strength_sums (t : Stmt) (st : Store)
    (qs : List (Qualifiers × Nat))
    (h0 : st.records.filter (matchesB .semantic t) = [])
    (hne : qs ≠ [])
    (hv : ∀ p ∈ qs, validSemanticB p.1 = true) :
    ∃ st' r, runAdds .semantic t st qs = .ok st'
      ∧ st'.records.filter (matchesB .semantic t) = [r]
      ∧ r.quals.strength
          = some ((qs.map (fun p => p.1.strength.getD 0)).sum) := by
  cases qs with
  | nil => exact absurd rfl hne
  | cons p rest =>
      obtain ⟨q0, now0⟩ := p
      have hv0 : validLongTermB .semantic q0 = true := hv (q0, now0) (by simp)
      obtain ⟨s0, hs0, _⟩ := validSemantic_strength (hv (q0, now0) (by simp))
      have hs0' : q0.strength = some s0 := hs0
      obtain ⟨st1, hok, hf1⟩ := @add_one_new .semantic q0 now0 st t hv0 h0
      have hn1 : (⟨st.nextId, t, newLongTermQuals .semantic q0 now0,
          .long_term .semantic⟩ : MemoryRecord).quals.strength = some s0 := by
        simp [newLongTermQuals, hs0']
      obtain ⟨st', r, hrun, hf', hn'⟩ :=
        runAdds_semantic rest (fun p hp => hv p (by simp [hp])) hf1 hn1
      refine ⟨st', r, ?_, hf', ?_⟩
      · rw [runAdds, hok]
        exact hrun
      · rw [hn']
        congr 1
        simp only [List.map_cons, List.sum_cons, hs0', Option.getD_some]

/-! ## Positivity invariant -/

theorem positive_newLongTermQuals {cat : Category} {q : Qualifiers}
    {now : Nat} (hv : validLongTermB cat q = true) :
    positiveQuals (newLongTermQuals cat q now) := by
  cases cat with
  | episodic =>
      constructor
      · intro k hk
        simp only [newLongTermQuals, Option.some.injEq] at hk
        omega
      · intro s hs
        simp [newLongTermQuals] at hs
  | semantic =>
      obtain ⟨s0, hs0, hpos⟩ := validSemantic_strength hv
      constructor
      · intro k hk
        simp [newLongTermQuals] at hk
      · intro s hs
        simp only [newLongTermQuals, hs0, Option.some.injEq] at hs
        omega

theorem positive_bump {cat : Category} {q : Qualifiers} {r : MemoryRecord}
    (hq : positiveQuals r.quals) (hv : validLongTermB cat q = true) :
    positiveQuals (bump cat q r).quals := by
  obtain ⟨hnum, hstr⟩ := hq
  cases cat with
  | episodic =>
      constructor
      · intro k hk
        simp only [bump, Option.some.injEq] at hk
        cases hn : r.quals.num_recalled with
        | none => rw [hn] at hk; simp at hk; omega
        | some m =>
            have := hnum m hn
            rw [hn] at hk
            simp at hk
            omega
      · intro s hs
        simp only [bump] at hs
        exact hstr s hs
  | semantic =>
      obtain ⟨s0, hs0, hpos⟩ := validSemantic_strength hv
      constructor
      · intro k hk
        simp only [bump] at hk
        exact hnum k hk
      · intro s hs
        simp only [bump, hs0, Option.some.injEq, Option.getD_some] at hs
        cases hn : r.quals.strength with
        | none => rw [hn] at hs; simp at hs; omega
        | some m =>
            have := hstr m hn
            rw [hn] at hs
            simp at hs
            omega

theorem mergeInto_preserves {cat : Category} {q : Qualifiers} {t : Stmt}
    (hv : validLongTermB cat q = true) :
    ∀ {rs rs' : List MemoryRecord}, mergeInto cat q t rs = some rs' →
      (∀ r ∈ rs, positiveQuals r.quals) →
      ∀ r ∈ rs', positiveQuals r.quals := by
  intro rs
  induction rs with
  | nil => intro rs' h; cases h
  | cons r0 rs ih =>
      intro rs' h hall
      rw [mergeInto] at h
      by_cases hm : matchesB cat t r0 = true
      · rw [if_pos hm] at h
        cases h
        intro r hr
        rcases List.mem_cons.mp hr with rfl | hr
        · exact positive_bump (hall r0 (by simp)) hv
        · exact hall r (by simp [hr])
      · rw [if_neg hm] at h
        cases hmi : mergeInto cat q t rs with
        | none => rw [hmi] at h; cases h
        | some w =>
            rw [hmi] at h
            simp only [Option.map_some', Option.some.injEq] at h
            subst h
            intro r hr
            rcases List.mem_cons.mp hr with rfl | hr
            · exact hall r (by simp)
            · exact ih hmi (fun r' hr' => hall r' (by simp [hr'])) r hr

theorem addLongTermOne_preserves {cat : Category} {q : Qualifiers}
    {now : Nat} {st : Store} {t : Stmt} (hv : validLongTermB cat q = true)
    (hall : ∀ r ∈ st.records, positiveQuals r.quals) :
    ∀ r ∈ (addLongTermOne cat q now st t).records, positiveQuals r.quals := by
  rw [addLongTermOne]
  cases hmi : mergeInto cat q t st.records with
  | none =>
      intro r hr
      simp only [List.mem_append, List.mem_singleton] at hr
      rcases hr with hr | rfl
      · exact hall r hr
      · exact positive_newLongTermQuals hv
  | some rs' =>
      exact mergeInto_preserves hv hmi hall

theorem foldl_addLongTerm_preserves {cat : Category} {q : Qualifiers}
    {now : Nat} (hv : validLongTermB cat q = true) :
    ∀ (ts : List Stmt) (st : Store),
      (∀ r ∈ st.records, positiveQuals r.quals) →
      ∀ r ∈ (ts.foldl (addLongTermOne cat q now) st).records,
        positiveQuals r.quals := by
  intro ts
  induction ts with
  | nil => intro st hall; exact hall
  | cons t ts ih =>
      intro st hall
      rw [List.foldl_cons]
      exact ih _ (addLongTermOne_preserves hv hall)

theorem validShortTerm_positive {q : Qualifiers} {now : Nat}
    (hv : validShortTermB q = true) :
    positiveQuals ({ q with current_time := some now } : Qualifiers) := by
  rw [validShortTermB] at hv
  simp only [Bool.and_eq_true, Option.isNone_iff_eq_none] at hv
  constructor
  · intro k hk
    rw [show ({ q with current_time := some now } : Qualifiers).num_recalled
        = q.num_recalled from rfl, hv.1.1.2] at hk
    cases hk
  · intro s hs
    rw [show ({ q with current_time := some now } : Qualifiers).strength
        = q.strength from rfl, hv.1.2] at hs
    cases hs

theorem reachable_positive :
    ∀ {st : Store}, Reachable st → ∀ r ∈ st.records, positiveQuals r.quals := by
  intro st h
  induction h with
  | empty => intro r hr; cases hr
  | short st st' ts q now _ hok ih =>
      rw [add_short_term_memory] at hok
      by_cases hv : validShortTermB q = true
      · rw [if_pos hv] at hok
        cases hok
        intro r hr
        rw [shortFold_records q now ts st] at hr
        rcases List.mem_append.mp hr with hr | hr
        · exact ih r hr
        · rw [(shortNew_shape q now ts st.nextId r hr).2]
          exact validShortTerm_positive hv
      · rw [if_neg hv] at hok
        cases hok
  | long st st' cat ts q now _ hok ih =>
      rw [add_long_term_memory] at hok
      by_cases hv : validLongTermB cat q = true
      · rw [if_pos hv] at hok
        cases hok
        exact foldl_addLongTerm_preserves hv ts st ih
      · rw [if_neg hv] at hok
        cases hok

theorem episodic_num_recalled_rejected {st : Store} {ts : List Stmt}
    {q : Qualifiers} {now : Nat} {k : Int} (h : q.num_recalled = some k) :
    add_long_term_memory st .episodic ts q now = .error .validation := by
  have hval : validEpisodicB q = false := by
    rw [validEpisodicB, h]
    simp
  rw [add_long_term_memory]
  rw [show validLongTermB .episodic q = validEpisodicB q from rfl, hval]
  rfl

theorem semantic_nonpositive_rejected {st : Store} {ts : List Stmt}
    {q : Qualifiers} {now : Nat} {s : Int} (h : q.strength = some s)
    (hs : s ≤ 0) :
    add_long_term_memory st .semantic ts q now = .error .validation := by
  have hval : validSemanticB q = false := by
    rw [validSemanticB, h]
    have : ¬(1 : Int) ≤ s := by omega
    simp [this]
  rw [add_long_term_memory]
  rw [show validLongTermB .semantic q = validSemanticB q from rfl, hval]
  rfl

/-- C8: in every reachable store state, every `num_recalled` and every
`strength` qualifier value is at least one; an attempt to supply a
non-positive `num_recalled` or `strength` to a long-term add fails validation
with no store returned, so the store is left unchanged. -/
theorem C8_positivity_invariant :
    (∀ st, Reachable st → ∀ r ∈ st.records, positiveQuals r.quals)
    ∧ (∀ (st : Store) (ts : List Stmt) (q : Qualifiers) (now : Nat) (k : Int),
        q.num_recalled = some k → k ≤ 0 →
        add_long_term_memory st .episodic ts q now = .error .validation)
    ∧ (∀ (st : Store) (ts : List Stmt) (q : Qualifiers) (now : Nat) (s : Int),
        q.strength = some s → s ≤ 0 →
        add_long_term_memory st .semantic ts q now = .error .validation) := by
  refine ⟨fun st h => reachable_positive h, ?_, ?_⟩
  · intro st ts q now k hk _
    exact episodic_num_recalled_rejected hk
  · intro st ts q now s hs hle
    exact semantic_nonpositive_rejected hs hle

/-! ## Serializer lemmas -/

theorem digitChar_facts {d : Nat} (h : d < 10) :
    charDigit (digitChar d) = d ∧ digitChar d ≠ '\t' ∧ digitChar d ≠ '\n'
      ∧ digitChar d ≠ '-' := by
  interval_cases d <;> exact ⟨by decide, by decide, by decide, by decide⟩

theorem decNat_encNat (n : Nat) : decNat (encNat n) = n := by
  rw [decNat, encNat, List.map_map]
  have h1 : ∀ d ∈ Nat.digits 10 n, (charDigit ∘ digitChar) d = id d := by
    intro d hd
    have hlt : d < 10 := Nat.digits_lt_base (by norm_num) hd
    simpa using (digitChar_facts hlt).1
  rw [List.map_congr_left h1, List.map_id]
  exact Nat.ofDigits_digits 10 n

theorem mem_encNat {n : Nat} {c : Char} (hc : c ∈ encNat n) :
    c ≠ '\t' ∧ c ≠ '\n' ∧ c ≠ '-' := by
  rw [encNat] at hc
  obtain ⟨d, hd, rfl⟩ := List.mem_map.mp hc
  have hlt : d < 10 := Nat.digits_lt_base (by norm_num) hd
  exact (digitChar_facts hlt).2

theorem decInt_encInt (i : Int) : decInt (encInt i) = i := by
  rw [encInt]
  by_cases h : i < 0
  · rw [if_pos h]
    show decInt ('-' :: encNat i.natAbs) = i
    rw [decInt, if_pos rfl, decNat_encNat]
    omega
  · rw [if_neg h]
    cases hE : encNat i.natAbs with
    | nil =>
        have h0 : i.natAbs = 0 := by
          rw [encNat] at hE
          exact Nat.digits_eq_nil_iff_eq_zero.mp (List.map_eq_nil_iff.mp hE)
        show decInt [] = i
        rw [decInt]
        omega
    | cons c rest =>
        have hc : ¬c = '-' := (mem_encNat (by rw [hE]; simp)).2.2
        show decInt (c :: rest) = i
        rw [decInt, if_neg hc, ← hE, decNat_encNat]
        omega

theorem mem_encInt {i : Int} {c : Char} (hc : c ∈ encInt i) :
    c ≠ '\t' ∧ c ≠ '\n' := by
  rw [encInt] at hc
  split at hc
  · rcases List.mem_cons.mp hc with rfl | hc
    · exact ⟨by decide, by decide⟩
    · exact ⟨(mem_encNat hc).1, (mem_encNat hc).2.1⟩
  · exact ⟨(mem_encNat hc).1, (mem_encNat hc).2.1⟩

theorem decOptNat_encOptNat (x : Option Nat) :
    decOptNat (encOptNat x) = some x := by
  cases x with
  | none => rfl
  | some n =>
      show decOptNat ('1' :: encNat n) = some (some n)
      rw [decOptNat, if_neg (by decide), if_pos rfl, decNat_encNat]

theorem decOptInt_encOptInt (x : Option Int) :
    decOptInt (encOptInt x) = some x := by
  cases x with
  | none => rfl
  | some i =>
      show decOptInt ('1' :: encInt i) = some (some i)
      rw [decOptInt, if_neg (by decide), if_pos rfl, decInt_encInt]

theorem mem_escChar {a c : Char} (hc : c ∈ escChar a) :
    c ≠ '\t' ∧ c ≠ '\n' := by
  rw [escChar] at hc
  by_cases h1 : a = '\\'
  · rw [if_pos h1] at hc
    rcases List.mem_cons.mp hc with rfl | hc
    · exact ⟨by decide, by decide⟩
    · rcases List.mem_singleton.mp hc with rfl
      exact ⟨by decide, by decide⟩
  · rw [if_neg h1] at hc
    by_cases h2 : a = '\t'
    · rw [if_pos h2] at hc
      rcases List.mem_cons.mp hc with rfl | hc
      · exact ⟨by decide, by decide⟩
      · rcases List.mem_singleton.mp hc with rfl
        exact ⟨by decide, by decide⟩
    · rw [if_neg h2] at hc
      by_cases h3 : a = '\n'
      · rw [if_pos h3] at hc
        rcases List.mem_cons.mp hc with rfl | hc
        · exact ⟨by decide, by decide⟩
        · rcases List.mem_singleton.mp hc with rfl
          exact ⟨by decide, by decide⟩
      · rw [if_neg h3] at hc
        rcases List.mem_singleton.mp hc with rfl
        exact ⟨h2, h3⟩

theorem mem_escape : ∀ {cs : List Char} {c : Char},
    c ∈ escape cs → c ≠ '\t' ∧ c ≠ '\n' := by
  intro cs
  induction cs with
  | nil => intro c hc; simp [escape] at hc
  | cons a cs ih =>
      intro c hc
      rw [escape] at hc
      rcases List.mem_append.mp hc with hc | hc
      · exact mem_escChar hc
      · exact ih hc

theorem escape_eq_nil {cs : List Char} (h : escape cs = []) : cs = [] := by
  cases cs with
  | nil => rfl
  | cons a cs =>
      rw [escape] at h
      have hne : escChar a ≠ [] := by
        rw [escChar]
        split_ifs <;> simp
      exact absurd (List.append_eq_nil.mp h).1 hne

theorem unescape_escape : ∀ cs : List Char, unescape (escape cs) = cs := by
  intro cs
  induction cs with
  | nil => rfl
  | cons c cs ih =>
      rw [escape, escChar]
      by_cases h1 : c = '\\'
      · subst h1
        rw [if_pos rfl]
        show unescape ('\\' :: '\\' :: escape cs) = _
        rw [unescape, if_pos rfl]
        simp [ih]
      · rw [if_neg h1]
        by_cases h2 : c = '\t'
        · subst h2
          rw [if_pos rfl]
          show unescape ('\\' :: 't' :: escape cs) = _
          rw [unescape, if_pos rfl]
          simp [ih]
        · rw [if_neg h2]
          by_cases h3 : c = '\n'
          · subst h3
            rw [if_pos rfl]
            show unescape ('\\' :: 'n' :: escape cs) = _
            rw [unescape, if_pos rfl]
            simp [ih]
          · rw [if_neg h3]
            show unescape (c :: escape cs) = _
            cases hE : escape cs with
            | nil =>
                have hcs : cs = [] := escape_eq_nil hE
                subst hcs
                show unescape [c] = [c]
                rw [unescape, if_neg h1]
            | cons e es =>
                show unescape (c :: e :: es) = _
                rw [unescape, if_neg h1, ← hE, ih]

theorem decOptStr_encOptStr (x : Option String) :
    decOptStr (encOptStr x) = some x := by
  cases x with
  | none => rfl
  | some s =>
      show decOptStr ('1' :: escape s.data) = some (some s)
      rw [decOptStr, if_neg (by decide), if_pos rfl, unescape_escape]

theorem decodeClass_encodeClass (c : MemoryClass) :
    decodeClass (encodeClass c) = some c := by
  cases c with
  | short_term => rfl
  | long_term cat => cases cat <;> rfl

theorem mem_encOptNat {x : Option Nat} {c : Char} (hc : c ∈ encOptNat x) :
    c ≠ '\t' ∧ c ≠ '\n' := by
  cases x with
  | none =>
      rw [encOptNat] at hc
      rcases List.mem_singleton.mp hc with rfl
      exact ⟨by decide, by decide⟩
  | some n =>
      rcases List.mem_cons.mp hc with rfl | hc
      · exact ⟨by decide, by decide⟩
      · exact ⟨(mem_encNat hc).1, (mem_encNat hc).2.1⟩

theorem mem_encOptInt {x : Option Int} {c : Char} (hc : c ∈ encOptInt x) :
    c ≠ '\t' ∧ c ≠ '\n' := by
  cases x with
  | none =>
      rw [encOptInt] at hc
      rcases List.mem_singleton.mp hc with rfl
      exact ⟨by decide, by decide⟩
  | some i =>
      rcases List.mem_cons.mp hc with rfl | hc
      · exact ⟨by decide, by decide⟩
      · exact mem_encInt hc

theorem mem_encOptStr {x : Option String} {c : Char} (hc : c ∈ encOptStr x) :
    c ≠ '\t' ∧ c ≠ '\n' := by
  cases x with
  | none =>
      rw [encOptStr] at hc
      rcases List.mem_singleton.mp hc with rfl
      exact ⟨by decide, by decide⟩
  | some s =>
      rcases List.mem_cons.mp hc with rfl | hc
      · exact ⟨by decide, by decide⟩
      · exact mem_escape hc

theorem mem_encodeClass {cls : MemoryClass} {c : Char}
    (hc : c ∈ encodeClass cls) : c ≠ '\t' ∧ c ≠ '\n' := by
  cases cls with
  | short_term =>
      rcases List.mem_singleton.mp hc with rfl
      exact ⟨by decide, by decide⟩
  | long_term cat =>
      cases cat <;>
        (rcases List.mem_singleton.mp hc with rfl; exact ⟨by decide, by decide⟩)

theorem not_sep_of_ne {l : List Char} {c : Char}
    (h : ∀ x ∈ l, x ≠ '\t' ∧ x ≠ '\n') (hc : c = '\t' ∨ c = '\n') : c ∉ l := by
  intro hmem
  rcases hc with rfl | rfl
  · exact (h _ hmem).1 rfl
  · exact (h _ hmem).2 rfl

theorem not_mem_joinWith {c sep : Char} (hcs : c ≠ sep) :
    ∀ {ls : List (List Char)}, (∀ l ∈ ls, c ∉ l) → c ∉ joinWith sep ls := by
  intro ls
  induction ls with
  | nil => intro _; simp [joinWith]
  | cons l ls ih =>
      intro h
      cases ls with
      | nil => simpa [joinWith] using h l (by simp)
      | cons l' ls' =>
          show c ∉ l ++ sep :: joinWith sep (l' :: ls')
          intro hc
          rcases List.mem_append.mp hc with hc | hc
          · exact h l (by simp) hc
          · rcases List.mem_cons.mp hc with rfl | hc
            · exact hcs rfl
            · exact ih (fun a ha => h a (by simp [ha])) hc

theorem joinWith_ne_nil {sep : Char} {ls : List (List Char)} (h : ls ≠ [])
    (h2 : ∀ l ∈ ls, l ≠ []) : joinWith sep ls ≠ [] := by
  cases ls with
  | nil => exact absurd rfl h
  | cons l ls =>
      cases ls with
      | nil => exact h2 l (by simp)
      | cons l' ls' =>
          show l ++ sep :: joinWith sep (l' :: ls') ≠ []
          simp

theorem splitOnChar_not_mem {sep : Char} :
    ∀ {l : List Char}, sep ∉ l → splitOnChar sep l = [l] := by
  intro l
  induction l with
  | nil => intro _; rfl
  | cons c cs ih =>
      intro h
      have hc : ¬c = sep := fun he => h (by rw [he]; exact List.mem_cons_self sep cs)
      have htail : sep ∉ cs := fun hm => h (List.mem_cons_of_mem c hm)
      rw [splitOnChar, if_neg hc, ih htail]

theorem splitOnChar_append {sep : Char} :
    ∀ {l rest : List Char}, sep ∉ l →
      splitOnChar sep (l ++ sep :: rest) = l :: splitOnChar sep rest := by
  intro l
  induction l with
  | nil =>
      intro rest _
      show splitOnChar sep (sep :: rest) = [] :: splitOnChar sep rest
      rw [splitOnChar, if_pos rfl]
  | cons c cs ih =>
      intro rest h
      have hc : ¬c = sep := fun he => h (by rw [he]; exact List.mem_cons_self sep cs)
      have htail : sep ∉ cs := fun hm => h (List.mem_cons_of_mem c hm)
      show splitOnChar sep (c :: (cs ++ sep :: rest)) = _
      rw [splitOnChar, if_neg hc, ih htail]

theorem splitOnChar_joinWith {sep : Char} :
    ∀ {ls : List (List Char)}, ls ≠ [] → (∀ l ∈ ls, sep ∉ l) →
      splitOnChar sep (joinWith sep ls) = ls := by
  intro ls
  induction ls with
  | nil => intro h _; exact absurd rfl h
  | cons l ls ih =>
      intro _ h
      cases ls with
      | nil => exact splitOnChar_not_mem (h l (by simp))
      | cons l' ls' =>
          show splitOnChar sep (l ++ sep :: joinWith sep (l' :: ls')) = _
          rw [splitOnChar_append (h l (by simp)),
            ih (by simp) (fun a ha => h a (by simp [ha]))]

theorem encodeRecord_fields_clean (r : MemoryRecord)
    {c : Char} (hc : c = '\t' ∨ c = '\n') :
    ∀ l ∈ [escape r.stmt.subj.data, escape r.stmt.pred.data,
        escape r.stmt.obj.data,
        encodeClass r.cls, encOptNat r.quals.current_time,
        encOptNat r.quals.time_added, encOptInt r.quals.num_recalled,
        encOptInt r.quals.strength, encOptStr r.quals.derived_from,
        encOptStr r.quals.location, encOptStr r.quals.emotion,
        encOptStr r.quals.event], c ∉ l := by
  intro l hl
  simp only [List.mem_cons, List.not_mem_nil, or_false] at hl
  rcases hl with rfl | rfl | rfl | rfl | rfl | rfl | rfl | rfl | rfl | rfl | rfl | rfl
  · exact not_sep_of_ne (fun x hx => mem_escape hx) hc
  · exact not_sep_of_ne (fun x hx => mem_escape hx) hc
  · exact not_sep_of_ne (fun x hx => mem_escape hx) hc
  · exact not_sep_of_ne (fun x hx => mem_encodeClass hx) hc
  · exact not_sep_of_ne (fun x hx => mem_encOptNat hx) hc
  · exact not_sep_of_ne (fun x hx => mem_encOptNat hx) hc
  · exact not_sep_of_ne (fun x hx => mem_encOptInt hx) hc
  · exact not_sep_of_ne (fun x hx => mem_encOptInt hx) hc
  · exact not_sep_of_ne (fun x hx => mem_encOptStr hx) hc
  · exact not_sep_of_ne (fun x hx => mem_encOptStr hx) hc
  · exact not_sep_of_ne (fun x hx => mem_encOptStr hx) hc
  · exact not_sep_of_ne (fun x hx => mem_encOptStr hx) hc

theorem encodeRecord_no_newline (r : MemoryRecord) :
    '\n' ∉ encodeRecord r := by
  rw [encodeRecord]
  exact not_mem_joinWith (by decide) (encodeRecord_fields_clean r (Or.inr rfl))

theorem encodeRecord_ne_nil (r : MemoryRecord) : encodeRecord r ≠ [] := by
  rw [encodeRecord]
  show escape r.stmt.subj.data ++ '\t' :: _ ≠ []
  simp

theorem decodeRecord_encodeRecord (r : MemoryRecord) :
    decodeRecord (encodeRecord r) = some (recKey r) := by
  rw [decodeRecord, encodeRecord,
    splitOnChar_joinWith (by simp) (encodeRecord_fields_clean r (Or.inl rfl))]
  simp only [decodeClass_encodeClass, decOptNat_encOptNat, decOptInt_encOptInt,
    decOptStr_encOptStr, unescape_escape, Option.bind_eq_bind, Option.some_bind]
  rfl

theorem sequenceO_map_some (ds : List RecData) :
    sequenceO (ds.map some) = some ds := by
  induction ds with
  | nil => rfl
  | cons d ds ih => simp [sequenceO, ih]

theorem recordsFromData_map_key (ds : List RecData) :
    ∀ i, (recordsFromData i ds).map recKey = ds := by
  induction ds with
  | nil => intro i; rfl
  | cons d ds ih => intro i; simp [recordsFromData, recKey, ih]

/-- C6: serialization round-trip — exporting any store whatsoever and
importing the result yields a store with the same multiset of (triple,
qualifiers, class, category) tuples; record ids may differ but no record is
lost, duplicated, or altered. -/
theorem C6_round_trip (S : Store) :
    ∃ T, load_from_ttl (save_to_ttl S) = some T
      ∧ ((T.records.map recKey : List RecData) : Multiset RecData)
          = ((S.records.map recKey : List RecData) : Multiset RecData) := by
  cases hrec : S.records with
  | nil =>
      refine ⟨emptyStore, ?_, by simp [hrec, emptyStore]⟩
      rw [save_to_ttl, hrec]
      rfl
  | cons r0 rs =>
      have hln : ∀ l ∈ S.records.map encodeRecord, '\n' ∉ l := by
        intro l hl
        obtain ⟨r, hr, rfl⟩ := List.mem_map.mp hl
        exact encodeRecord_no_newline r
      have hnempty : S.records.map encodeRecord ≠ [] := by simp [hrec]
      have hdata : (save_to_ttl S).data
          = joinWith '\n' (S.records.map encodeRecord) := rfl
      have hne2 : (save_to_ttl S).data ≠ [] := by
        rw [hdata]
        exact joinWith_ne_nil hnempty
          (fun l hl => by
            obtain ⟨r, _, rfl⟩ := List.mem_map.mp hl
            exact encodeRecord_ne_nil r)
      have hdec : (S.records.map encodeRecord).map decodeRecord
          = (S.records.map recKey).map some := by
        simp only [List.map_map]
        apply List.map_congr_left
        intro r hr
        exact decodeRecord_encodeRecord r
      refine ⟨⟨recordsFromData 0 (S.records.map recKey),
        (S.records.map recKey).length⟩, ?_, ?_⟩
      · rw [load_from_ttl, if_neg hne2, hdata,
          splitOnChar_joinWith hnempty hln, hdec, sequenceO_map_some]
      · have hmk := recordsFromData_map_key (S.records.map recKey) 0
        rw [← hrec]
        exact congrArg (fun l : List RecData => (l : Multiset RecData)) hmk

/-! ## Concrete data for witnesses -/

def wAlice : Stmt := ⟨"Alice", "met", "Bob"⟩

def wBobCarol : Stmt := ⟨"Bob", "met", "Carol"⟩

def demoShort : MemoryRecord :=
  ⟨0, wAlice, { current_time := some 1, location := some "Paris" }, .short_term⟩

def demoLong : MemoryRecord :=
  ⟨1, wBobCarol,
    { time_added := some 2, num_recalled := some 1, location := some "NY" },
    .long_term .episodic⟩

def demoStore : Store := ⟨[demoShort, demoLong], 2⟩

def epiQ1 : Qualifiers := { location := some "NY", emotion := some "joy" }

def epiQ2 : Qualifiers := { location := some "London" }

def semQ1 : Qualifiers := { derived_from := some "research", strength := some 5 }

def semQ2 : Qualifiers := { derived_from := some "observation", strength := some 3 }

def badEmotionQ : Qualifiers := { location := some "NY", emotion := some "ecstatic" }

def badNumQ : Qualifiers := { location := some "NY", num_recalled := some 0 }

def badStrQ : Qualifiers := { derived_from := some "x", strength := some 0 }

def stQ : Qualifiers := { location := some "Paris" }

theorem C1_witness :
    ∃ st' r,
      runAdds .episodic wAlice emptyStore [(epiQ1, 5), (epiQ2, 6)] = .ok st'
        ∧ st'.records.filter (matchesB .episodic wAlice) = [r]
        ∧ r.quals.num_recalled = some (2 : Int) :=
  C1_episodic_repeat_merges wAlice emptyStore [(epiQ1, 5), (epiQ2, 6)] rfl
    (by decide) (by decide)

theorem C2_witness :
    ∃ st' r,
      runAdds .semantic wAlice emptyStore [(semQ1, 5), (semQ2, 6)] = .ok st'
        ∧ st'.records.filter (matchesB .semantic wAlice) = [r]
        ∧ r.quals.strength = some (8 : Int) :=
  C2_semantic_strength_sums wAlice emptyStore [(semQ1, 5), (semQ2, 6)] rfl
    (by decide) (by decide)

theorem C3_witness :
    demoShort ∈ get_working_memory demoStore ["Alice"] 0 false :=
  ((C3_hop_zero_short_only demoStore ["Alice"]).1 demoShort).mpr (by decide)

theorem C4_witness :
    demoShort ∈ get_working_memory demoStore ["Alice"] 2 false :=
  @C4_hop_monotonicity demoStore ["Alice"] 0 2 (by decide) demoShort (by decide)

theorem C5_witness :
    (get_working_memory demoStore ["Zed"] 0 true).filter isLongTermB
      = demoStore.records.filter isLongTermB :=
  (C5_include_all_long_term demoStore ["Zed"] 0).1

/-- A store whose node names and string qualifiers contain the format's
separator characters and the escape character. -/
def trickyStore : Store :=
  ⟨[⟨0, ⟨"Al\tice", "m\net", "Bob\\"⟩,
      { current_time := some 1, location := some "Pa\tris" }, .short_term⟩,
    ⟨1, wBobCarol,
      { time_added := some 2, num_recalled := some 1, event := some "a\nb" },
      .long_term .episodic⟩], 2⟩

theorem C6_witness :
    ∃ T, load_from_ttl (save_to_ttl trickyStore) = some T
      ∧ ((T.records.map recKey : List RecData) : Multiset RecData)
          = ((trickyStore.records.map recKey : List RecData) : Multiset RecData) :=
  C6_round_trip trickyStore

theorem C7_witness :
    add_long_term_memory emptyStore .episodic [wAlice] badEmotionQ 0
      = .error .validation :=
  C7_emotion_enum_rejected emptyStore [wAlice] badEmotionQ 0 "ecstatic" rfl
    (by decide)

theorem C8_witness :
    (∀ r ∈ emptyStore.records, positiveQuals r.quals)
    ∧ add_long_term_memory emptyStore .episodic [wAlice] badNumQ 0
        = .error .validation
    ∧ add_long_term_memory emptyStore .semantic [wAlice] badStrQ 0
        = .error .validation :=
  ⟨C8_positivity_invariant.1 emptyStore Reachable.empty,
    C8_positivity_invariant.2.1 emptyStore [wAlice] badNumQ 0 0 rfl (by decide),
    C8_positivity_invariant.2.2 emptyStore [wAlice] badStrQ 0 0 rfl (by decide)⟩

theorem C9_witness :
    ∃ st', add_short_term_memory emptyStore [wAlice, wAlice] stQ 7 = .ok st'
      ∧ st'.records
          = emptyStore.records ++ shortNew stQ 7 emptyStore.nextId [wAlice, wAlice]
      ∧ st'.records.length = emptyStore.records.length + 2
      ∧ (st'.records.filter isShortTermB).length
          = (emptyStore.records.filter isShortTermB).length + 2 :=
  C9_short_term_never_merges emptyStore [wAlice, wAlice] stQ 7 (by decide)

end Humemai
